import Mathlib

/-!
Verification of the `functions` utility repository.

Each Python helper that the claims touch is shallowly embedded as an
executable Lean definition.  Strings are modelled as Lean `String` or as
`List Char` (Python strings are sequences of Unicode code points, and
Python `len`/slicing count code points, matching `List Char` length/take).
Stateful or I/O-bound helpers (`subprocess.run`, HTTP responses, the file
system, the interactive prompt) are embedded by passing the external
outcome explicitly as a value.
-/

namespace Functions

/-! ## Text utilities (`utils/text/text_utils.py`) -/

/-- Python slice `l[:stop]` for a possibly negative `stop`. -/
def pySlice (l : List Char) (stop : Int) : List Char :=
  if stop < 0 then l.take (((l.length : Int) + stop).toNat)
  else l.take stop.toNat

/-- `truncate_text(text, max_length, suffix)`: return `text` unchanged when
`len(text) <= max_length`, else `text[:max_length - len(suffix)] + suffix`. -/
def truncate_text (text : List Char) (max_length : Nat) (suffix : List Char) : List Char :=
  if text.length ≤ max_length then text
  else pySlice text ((max_length : Int) - (suffix.length : Int)) ++ suffix

/-- Python `\s` on ASCII input: space, tab, newline, carriage return,
vertical tab, form feed. -/
def isPySpace (c : Char) : Bool :=
  c = ' ' || c = '\t' || c = '\n' || c = '\r' || c = '\x0b' || c = '\x0c'

/-- Python `\w` on ASCII input: letters, digits, underscore. -/
def isPyWord (c : Char) : Bool :=
  c.isAlpha || c.isDigit || c = '_'

/-- Helper for `re.sub(r"\s+", sep, _)`: replace each maximal run of
characters satisfying `p` by the single character `sep`.  The flag records
whether the previous character was part of a run. -/
def collapseRunsAux (p : Char → Bool) (sep : Char) : Bool → List Char → List Char
  | _, [] => []
  | inRun, c :: rest =>
    if p c then
      if inRun then collapseRunsAux p sep true rest
      else sep :: collapseRunsAux p sep true rest
    else c :: collapseRunsAux p sep false rest

/-- `re.sub(r"\s+", sep, l)` with a one-character replacement. -/
def collapseRuns (p : Char → Bool) (sep : Char) (l : List Char) : List Char :=
  collapseRunsAux p sep false l

/-- `to_snake_case`: drop `[^\w\s]`, replace `\s+` by `_`, lowercase. -/
def to_snake_case (text : List Char) : List Char :=
  (collapseRuns isPySpace '_' (text.filter (fun c => isPyWord c || isPySpace c))).map
    Char.toLower

/-- `to_kebab_case`: drop `[^\w\s]`, replace `\s+` by `-`, lowercase. -/
def to_kebab_case (text : List Char) : List Char :=
  (collapseRuns isPySpace '-' (text.filter (fun c => isPyWord c || isPySpace c))).map
    Char.toLower

/-- Splitter underlying Python `str.split()`: cut at every whitespace
character, keeping empty segments. -/
def splitW : List Char → List (List Char)
  | [] => [[]]
  | c :: rest =>
    if isPySpace c then [] :: splitW rest
    else
      match splitW rest with
      | [] => [[c]]
      | w :: ws => (c :: w) :: ws

/-- Python `text.split()`: whitespace-delimited words, empties dropped. -/
def pyWords (l : List Char) : List (List Char) :=
  (splitW l).filter (fun w => w ≠ [])

/-- Python `str.capitalize()`: first character uppercased, the rest
lowercased. -/
def pyCapitalize : List Char → List Char
  | [] => []
  | c :: rest => c.toUpper :: rest.map Char.toLower

/-- `to_camel_case`: split on whitespace; if there are no words return the
input unchanged, else lowercase the first word and capitalize and append
the remaining words. -/
def to_camel_case (text : List Char) : List Char :=
  match pyWords text with
  | [] => text
  | w :: ws => w.map Char.toLower ++ (ws.map pyCapitalize).flatten

/-! ## DateTime utilities (`utils/datetime/datetime_utils.py`)

`time_ago` computes `seconds = (now - past_date).total_seconds()` and then
buckets.  We embed it as a function of the elapsed whole seconds (the claim
restricts attention to a non-negative elapsed duration, and `int()`
truncation on a non-negative float is flooring, so a `Nat` argument is the
faithful model on whole-second inputs). -/

/-- `time_ago` as a function of the elapsed seconds. -/
def time_ago (seconds : Nat) : String :=
  if seconds < 60 then
    toString seconds ++ " seconds ago"
  else if seconds < 3600 then
    let minutes := seconds / 60
    toString minutes ++ " minute" ++ (if minutes ≠ 1 then "s" else "") ++ " ago"
  else if seconds < 86400 then
    let hours := seconds / 3600
    toString hours ++ " hour" ++ (if hours ≠ 1 then "s" else "") ++ " ago"
  else
    let days := seconds / 86400
    toString days ++ " day" ++ (if days ≠ 1 then "s" else "") ++ " ago"

/-! ## Commands module (`utils/commands/command_utils.py`) -/

/-- One entry of the static command catalog. -/
structure CommandRecord where
  command : String
  description : String
  platform : String
deriving DecidableEq, Repr

/-- Outcome of `subprocess.run`: either the launch raised (carrying the
exception text) or it produced a completed process. -/
structure CompletedProcess where
  returncode : Int
  stdout : String
  stderr : String
deriving DecidableEq, Repr

/-- The dictionary returned by `execute_command`. -/
structure ExecResult where
  returncode : Int
  stdout : Option String
  stderr : Option String
  success : Bool
deriving DecidableEq, Repr

/-- `execute_command(command, shell, capture_output)`: the launch outcome
(`subprocess.run` returning a completed process, or raising) is passed in
explicitly.  On an exception the result is `returncode = -1`,
`stdout = None`, `stderr = str(e)`, `success = False`; otherwise the
completed process is repackaged with `success = (returncode == 0)` and
`stdout`/`stderr` only kept when `capture_output` is true. -/
def execute_command (launch : Except String CompletedProcess)
    (capture_output : Bool) : ExecResult :=
  match launch with
  | .error e => ⟨-1, none, some e, false⟩
  | .ok r =>
    ⟨r.returncode,
     if capture_output then some r.stdout else none,
     if capture_output then some r.stderr else none,
     decide (r.returncode = 0)⟩

/-- `get_common_commands()`: the static catalog, a fresh copy of the same
literal nested mapping on every call (Python dicts preserve insertion
order, so an ordered association list is the faithful model). -/
def get_common_commands : List (String × List CommandRecord) :=
  [("file_operations",
    [⟨"ls -lah", "List all files with details and hidden files", "Linux/Mac"⟩,
     ⟨"dir", "List files in directory", "Windows"⟩,
     ⟨"cp -r source dest", "Copy directory recursively", "Linux/Mac"⟩,
     ⟨"mv source dest", "Move or rename files", "Linux/Mac"⟩,
     ⟨"rm -rf directory", "Remove directory and contents", "Linux/Mac"⟩,
     ⟨"find . -name \x27*.txt\x27", "Find all .txt files in current directory",
      "Linux/Mac"⟩]),
   ("system_info",
    [⟨"uname -a", "Display system information", "Linux/Mac"⟩,
     ⟨"systeminfo", "Display detailed system information", "Windows"⟩,
     ⟨"df -h", "Display disk usage in human-readable format", "Linux/Mac"⟩,
     ⟨"free -h", "Display memory usage", "Linux"⟩,
     ⟨"top", "Display running processes", "Linux/Mac"⟩]),
   ("network",
    [⟨"ping google.com", "Test network connectivity", "All"⟩,
     ⟨"curl -I https://example.com", "Get HTTP headers from URL", "Linux/Mac"⟩,
     ⟨"wget https://example.com/file", "Download file from URL", "Linux/Mac"⟩,
     ⟨"ifconfig", "Display network interface configuration", "Linux/Mac"⟩,
     ⟨"ipconfig", "Display network configuration", "Windows"⟩]),
   ("git",
    [⟨"git status", "Check repository status", "All"⟩,
     ⟨"git add .", "Stage all changes", "All"⟩,
     ⟨"git commit -m \x27message\x27", "Commit staged changes", "All"⟩,
     ⟨"git push", "Push commits to remote", "All"⟩,
     ⟨"git pull", "Pull changes from remote", "All"⟩,
     ⟨"git log --oneline", "View commit history (compact)", "All"⟩]),
   ("package_management",
    [⟨"pip install package_name", "Install Python package", "All"⟩,
     ⟨"npm install package_name", "Install Node.js package", "All"⟩,
     ⟨"apt-get update && apt-get install package",
      "Update and install package (Debian/Ubuntu)", "Linux"⟩,
     ⟨"brew install package", "Install package using Homebrew", "Mac"⟩]),
   ("compression",
    [⟨"tar -czf archive.tar.gz folder/", "Create compressed tar.gz archive",
      "Linux/Mac"⟩,
     ⟨"tar -xzf archive.tar.gz", "Extract tar.gz archive", "Linux/Mac"⟩,
     ⟨"zip -r archive.zip folder/", "Create zip archive", "All"⟩,
     ⟨"unzip archive.zip", "Extract zip archive", "All"⟩]),
   ("text_processing",
    [⟨"grep \x27pattern\x27 file.txt", "Search for pattern in file", "Linux/Mac"⟩,
     ⟨"sed \x27s/old/new/g\x27 file.txt", "Replace text in file", "Linux/Mac"⟩,
     ⟨"awk \x27\x7bprint $1\x7d\x27 file.txt", "Print first column of file",
      "Linux/Mac"⟩,
     ⟨"cat file1.txt file2.txt > combined.txt", "Concatenate files",
      "Linux/Mac"⟩])]

/-! ## File utilities (`utils/file/file_utils.py`)

`delete_files` touches the file system and an interactive prompt; the
embedding passes the current set of existing files and the prompt response
explicitly and returns the flag together with the new file state.  Inside
the batch, a path that exists is removed and a missing path is skipped
with a warning; neither raises, so the model has no exception case. -/

/-- Python `str.lower()` on ASCII input: lowercase every character. -/
def pyLower (s : String) : String :=
  String.mk (s.data.map Char.toLower)

/-- `delete_files(file_paths, confirm)` given the prompt `response` and the
set `state` of files that currently exist.  Returns the boolean result and
the files still existing afterwards. -/
def delete_files (file_paths : List String) (confirm : Bool)
    (response : String) (state : List String) : Bool × List String :=
  if confirm ∧ pyLower response ≠ "y" then (false, state)
  else (true, state.filter (fun f => ¬ file_paths.contains f))

/-! ## PDF utilities (`utils/pdf/pdf_utils.py`)

`download_pdf` performs `requests.get(url, stream=True)`, calls
`raise_for_status()` (which raises exactly for status codes in
`[400, 600)`), and writes `iter_content(chunk_size=8192)` chunks.  The
HTTP outcome is passed explicitly: either an exception or a response with
a final status code and a body (a byte list).  The embedding returns the
boolean result and the bytes written, `none` when nothing was written. -/

/-- An HTTP response as `download_pdf` sees it. -/
structure HttpResponse where
  status : Nat
  body : List Nat
deriving DecidableEq, Repr

/-- Structural worker for `iterContent`; the fuel starts at the length of
the list, which suffices because every step consumes at least one byte. -/
def iterContentAux (n : Nat) : Nat → List Nat → List (List Nat)
  | 0, _ => []
  | _, [] => []
  | fuel + 1, c :: rest => (c :: rest).take n :: iterContentAux n fuel ((c :: rest).drop n)

/-- `response.iter_content(chunk_size=n)`: the body cut into consecutive
chunks of at most `n` bytes (the last may be shorter), no empty chunks. -/
def iterContent (n : Nat) (l : List Nat) : List (List Nat) :=
  iterContentAux n l.length l

/-- `download_pdf(url, output_path, timeout)` given the HTTP outcome. -/
def download_pdf (resp : Except String HttpResponse) : Bool × Option (List Nat) :=
  match resp with
  | .error _ => (false, none)
  | .ok r =>
    if 400 ≤ r.status ∧ r.status < 600 then (false, none)
    else (true, some (iterContent 8192 r.body).flatten)

/-! ## Network utilities (`utils/network/network_utils.py`)

`encode_url` is `urllib.parse.quote(url)` and `decode_url` is
`urllib.parse.unquote(url)`.  `quote` UTF-8-encodes the string and
percent-encodes every byte outside its safe set (unreserved characters
plus the default `safe="/"`, uppercase hex); `unquote` decodes `%XX`
escapes (either hex case), leaving a `%` not followed by two hex digits
literal, and UTF-8-decodes.  Both are embedded at the byte level: a
Python string is modelled by its UTF-8 byte sequence, so `encode_url`
maps bytes to ASCII bytes and `decode_url` maps them back. -/

/-- The bytes `quote` leaves unescaped: `A-Z a-z 0-9 _ . - ~` and `/`. -/
def safeByte (b : Nat) : Bool :=
  (65 ≤ b && b ≤ 90) || (97 ≤ b && b ≤ 122) || (48 ≤ b && b ≤ 57) ||
    b = 95 || b = 46 || b = 45 || b = 126 || b = 47

/-- Uppercase hex digit of a nibble, as an ASCII byte. -/
def hexDigit (d : Nat) : Nat :=
  if d < 10 then 48 + d else 55 + d

/-- Does the ASCII byte denote a hex digit (either case)? -/
def isHexByte (x : Nat) : Bool :=
  (48 ≤ x && x ≤ 57) || (65 ≤ x && x ≤ 70) || (97 ≤ x && x ≤ 102)

/-- Value of an ASCII hex digit. -/
def hexVal (x : Nat) : Nat :=
  if x ≤ 57 then x - 48 else if x ≤ 70 then x - 65 + 10 else x - 97 + 10

/-- `quote` on a single byte: itself when safe, else `%XX`. -/
def quoteByte (b : Nat) : List Nat :=
  if safeByte b then [b] else [37, hexDigit (b / 16), hexDigit (b % 16)]

/-- `encode_url` on the UTF-8 bytes of the input string. -/
def encode_url (bs : List Nat) : List Nat :=
  (bs.map quoteByte).flatten

/-- `decode_url` on bytes: decode each `%` escape whose next two bytes are
hex digits; otherwise the `%` stays literal and scanning continues. -/
def decode_url : List Nat → List Nat
  | [] => []
  | [37] => [37]
  | [37, x] => 37 :: decode_url [x]
  | 37 :: h1 :: h2 :: rest2 =>
    if isHexByte h1 && isHexByte h2 then
      (hexVal h1 * 16 + hexVal h2) :: decode_url rest2
    else 37 :: decode_url (h1 :: h2 :: rest2)
  | c :: rest => c :: decode_url rest

/-! ## Data utilities (`utils/data/data_utils.py`)

`flatten_dict` walks a nested Python dict.  A dict value is either a
non-dict leaf (only its identity matters, modelled by a `Nat` tag) or a
nested dict; a dict is an insertion-ordered sequence of key/value pairs,
keys being strings (`List Char`).  `dict(items)` keeps keys in order of
first occurrence with the last value for each key, which `listToDict`
mirrors; it matters because flattened keys can collide. -/

mutual
/-- A Python value as `flatten_dict` distinguishes them. -/
inductive PyVal where
  | leaf : Nat → PyVal
  | dict : PyDict → PyVal
deriving DecidableEq
/-- A Python dict: insertion-ordered key/value pairs. -/
inductive PyDict where
  | nil : PyDict
  | cons : List Char → PyVal → PyDict → PyDict
deriving DecidableEq
end

instance : Inhabited PyVal := ⟨.leaf 0⟩

instance : Inhabited PyDict := ⟨.nil⟩

/-- Python `dict(items)` applied pair by pair: an existing key keeps its
position and takes the new value, a new key is appended. -/
def dictInsert (d : List (List Char × PyVal)) (k : List Char) (v : PyVal) :
    List (List Char × PyVal) :=
  if (d.map Prod.fst).contains k then
    d.map (fun p => if p.1 = k then (k, v) else p)
  else d ++ [(k, v)]

/-- Python `dict(items)` over a whole item list. -/
def listToDict (items : List (List Char × PyVal)) : List (List Char × PyVal) :=
  items.foldl (fun acc kv => dictInsert acc kv.1 kv.2) []

/-- The `new_key` computation of `flatten_dict`. -/
def newKey (parent_key sep k : List Char) : List Char :=
  if parent_key = [] then k else parent_key ++ sep ++ k

mutual
/-- The `items` list accumulated by `flatten_dict` before the final
`dict(items)`: a leaf contributes one pair, a nested dict contributes the
items of the recursive call (itself already a dict). -/
def flattenItems : PyDict → List Char → List Char → List (List Char × PyVal)
  | .nil, _, _ => []
  | .cons k v rest, parent_key, sep =>
    (match v with
     | .dict sub => listToDict (flattenItems sub (newKey parent_key sep k) sep)
     | .leaf n => [(newKey parent_key sep k, PyVal.leaf n)]) ++
    flattenItems rest parent_key sep
end

/-- `flatten_dict(d, parent_key, sep)`. -/
def flatten_dict (d : PyDict) (parent_key : List Char := [])
    (sep : List Char := ['.']) : List (List Char × PyVal) :=
  listToDict (flattenItems d parent_key sep)

mutual
/-- The relative path and leaf tag of every leaf of a dict, in the depth
first order `flatten_dict` visits them. -/
def leavesOf : PyDict → List (List (List Char) × Nat)
  | .nil => []
  | .cons k v rest =>
    (match v with
     | .dict sub => (leavesOf sub).map (fun pv => (k :: pv.1, pv.2))
     | .leaf n => [([k], n)]) ++ leavesOf rest
end

/-- The keys of the top level of a dict. -/
def topKeys : PyDict → List (List Char)
  | .nil => []
  | .cons k _ rest => k :: topKeys rest

mutual
/-- Well-formedness for the amended uniqueness claim: at every level the
keys are pairwise distinct (a Python dict guarantees this), nonempty, and
free of the separator character `c`. -/
def goodDict (c : Char) : PyDict → Bool
  | .nil => true
  | .cons k v rest =>
    decide (k ≠ []) && decide (c ∉ k) && decide (k ∉ topKeys rest) &&
      goodVal c v && goodDict c rest
/-- Well-formedness of a value: leaves are always fine. -/
def goodVal (c : Char) : PyVal → Bool
  | .leaf _ => true
  | .dict d => goodDict c d
end

/-- `".".join`-style encoding of a path with a one-character separator:
the key string a path reaches when no key is empty. -/
def encodePath (c : Char) : List (List Char) → List Char
  | [] => []
  | [k] => k
  | k :: rest => k ++ c :: encodePath c rest

/-- The flattened key produced for the relative path `p` below the
accumulated parent key: `encodePath` of `p`, prefixed by the parent and a
separator when the parent is nonempty. -/
def glue (c : Char) (parent : List Char) (p : List (List Char)) : List Char :=
  if parent = [] then encodePath c p else parent ++ c :: encodePath c p

/-- A well-formedness bundle for one path component list: nonempty, with
nonempty separator-free components. -/
def goodPath (c : Char) (p : List (List Char)) : Prop :=
  p ≠ [] ∧ ∀ comp ∈ p, comp ≠ [] ∧ ∀ x ∈ comp, x ≠ c

/-- The nested dict `{"a": {"b": 1}, "a.b": 2}`, whose two distinct leaf
paths collide on the flattened key `"a.b"`. -/
def exColl : PyDict :=
  .cons ['a'] (.dict (.cons ['b'] (.leaf 1) .nil))
    (.cons ['a', '.', 'b'] (.leaf 2) .nil)

/-- The nested dict `{"a": {"b": 1, "c": 2}}` from the spec example. -/
def exGood : PyDict :=
  .cons ['a'] (.dict (.cons ['b'] (.leaf 1) (.cons ['c'] (.leaf 2) .nil))) .nil

/-! ## Theorems -/

/-- Claim C1: for every `text`, `max_length` and `suffix` with
`len(suffix) ≤ max_length`, `truncate_text` returns `text` unchanged when
`len(text) ≤ max_length`, and otherwise the first
`max_length - len(suffix)` characters of `text` followed by `suffix`, of
total length exactly `max_length`; in particular
`truncate_text("This is a very long text", 10)` with the default suffix
`"..."` is `"This is..."`. -/
theorem claim_C1 :
    (∀ (text : List Char) (max_length : Nat) (sfx : List Char),
      sfx.length ≤ max_length →
      (text.length ≤ max_length → truncate_text text max_length sfx = text) ∧
      (max_length < text.length →
        truncate_text text max_length sfx =
          text.take (max_length - sfx.length) ++ sfx ∧
        (truncate_text text max_length sfx).length = max_length)) ∧
    truncate_text "This is a very long text".toList 10 "...".toList =
      "This is...".toList := by
  constructor
  · intro text max_length sfx hs
    constructor
    · intro hle
      simp [truncate_text, hle]
    · intro hgt
      have hnle : ¬ text.length ≤ max_length := by omega
      have heq : truncate_text text max_length sfx =
          text.take (max_length - sfx.length) ++ sfx := by
        unfold truncate_text pySlice
        rw [if_neg hnle,
          if_neg (by omega : ¬ ((max_length : Int) - (sfx.length : Int) < 0))]
        have ht : ((max_length : Int) - (sfx.length : Int)).toNat =
            max_length - sfx.length := by omega
        rw [ht]
      refine ⟨heq, ?_⟩
      rw [heq]
      simp only [List.length_append, List.length_take]
      omega
  · decide

/-- Witness for C1 at a concrete input: truncating an 8-character text to
length 5 with the 3-character default suffix. -/
theorem claim_C1_witness :
    truncate_text "abcdefgh".toList 5 "...".toList = "ab...".toList ∧
    (truncate_text "abcdefgh".toList 5 "...".toList).length = 5 := by
  have h := (claim_C1.1 "abcdefgh".toList 5 "...".toList (by decide)).2 (by decide)
  exact ⟨h.1.trans (by decide), h.2⟩

/-- Claim C2 counterexample: at an elapsed duration of exactly 1 second the
reported magnitude is 1 but the unit word is the plural `"seconds"`, so the
singular/plural suffix is not correct in the seconds bucket. -/
theorem claim_C2_counterexample :
    time_ago 1 = "1 seconds ago" ∧ time_ago 1 ≠ "1 second ago" := by
  constructor
  · rfl
  · decide

/-- Claim C2 (amended): `time_ago` buckets the elapsed duration at the four
thresholds exactly as claimed, and the minutes, hours and days buckets
carry the correct singular/plural suffix (singular exactly at magnitude 1),
but the seconds bucket always uses the plural `"seconds"`, even at
magnitude 1. -/
theorem claim_C2_amended : ∀ s : Nat,
    (s < 60 → time_ago s = toString s ++ " seconds ago") ∧
    (60 ≤ s → s < 3600 →
      1 ≤ s / 60 ∧ s / 60 < 60 ∧
      time_ago s =
        toString (s / 60) ++ (if s / 60 = 1 then " minute ago" else " minutes ago")) ∧
    (3600 ≤ s → s < 86400 →
      1 ≤ s / 3600 ∧ s / 3600 < 24 ∧
      time_ago s =
        toString (s / 3600) ++ (if s / 3600 = 1 then " hour ago" else " hours ago")) ∧
    (86400 ≤ s →
      1 ≤ s / 86400 ∧
      time_ago s =
        toString (s / 86400) ++ (if s / 86400 = 1 then " day ago" else " days ago")) := by
  intro s
  refine ⟨?_, ?_, ?_, ?_⟩
  · intro h
    simp [time_ago, h]
  · intro h1 h2
    refine ⟨by omega, by omega, ?_⟩
    unfold time_ago
    rw [if_neg (by omega : ¬ s < 60), if_pos h2]
    show toString (s / 60) ++ " minute" ++ (if s / 60 ≠ 1 then "s" else "") ++ " ago" = _
    by_cases hm : s / 60 = 1
    · rw [if_pos hm, if_neg (by omega : ¬ s / 60 ≠ 1), String.append_empty,
        String.append_assoc]
      exact congrArg (toString (s / 60) ++ ·) rfl
    · rw [if_neg hm, if_pos hm]
      simp only [String.append_assoc]
      exact congrArg (toString (s / 60) ++ ·) rfl
  · intro h1 h2
    refine ⟨by omega, by omega, ?_⟩
    unfold time_ago
    rw [if_neg (by omega : ¬ s < 60), if_neg (by omega : ¬ s < 3600), if_pos h2]
    show toString (s / 3600) ++ " hour" ++ (if s / 3600 ≠ 1 then "s" else "") ++ " ago" = _
    by_cases hm : s / 3600 = 1
    · rw [if_pos hm, if_neg (by omega : ¬ s / 3600 ≠ 1), String.append_empty,
        String.append_assoc]
      exact congrArg (toString (s / 3600) ++ ·) rfl
    · rw [if_neg hm, if_pos hm]
      simp only [String.append_assoc]
      exact congrArg (toString (s / 3600) ++ ·) rfl
  · intro h1
    refine ⟨by omega, ?_⟩
    unfold time_ago
    rw [if_neg (by omega : ¬ s < 60), if_neg (by omega : ¬ s < 3600),
      if_neg (by omega : ¬ s < 86400)]
    show toString (s / 86400) ++ " day" ++ (if s / 86400 ≠ 1 then "s" else "") ++ " ago" = _
    by_cases hm : s / 86400 = 1
    · rw [if_pos hm, if_neg (by omega : ¬ s / 86400 ≠ 1), String.append_empty,
        String.append_assoc]
      exact congrArg (toString (s / 86400) ++ ·) rfl
    · rw [if_neg hm, if_pos hm]
      simp only [String.append_assoc]
      exact congrArg (toString (s / 86400) ++ ·) rfl

/-- Witness for C2 (amended) at concrete inputs: 59 seconds, 60 seconds
(one minute, singular), and 7200 seconds (two hours, plural). -/
theorem claim_C2_witness :
    time_ago 59 = "59 seconds ago" ∧
    time_ago 60 = "1 minute ago" ∧
    time_ago 7200 = "2 hours ago" := by
  refine ⟨?_, ?_, ?_⟩
  · exact ((claim_C2_amended 59).1 (by decide)).trans (by decide)
  · exact (((claim_C2_amended 60).2.1 (by decide) (by decide)).2.2).trans (by decide)
  · exact (((claim_C2_amended 7200).2.2.1 (by decide) (by decide)).2.2).trans (by decide)

/-- Claim C4: `execute_command` never raises: a launch exception becomes
the structured failure `returncode = -1`, `success = false`, `stderr = `
exception text; in every result `success` holds exactly when the return
code is 0, so a failing command yields `success = false` with a non-zero
or negative code. -/
theorem claim_C4 :
    ∀ (launch : Except String CompletedProcess) (capture_output : Bool),
      ((execute_command launch capture_output).success = true ↔
        (execute_command launch capture_output).returncode = 0) ∧
      (∀ e, launch = .error e →
        execute_command launch capture_output =
          ⟨-1, none, some e, false⟩) ∧
      (∀ r, launch = .ok r → r.returncode ≠ 0 →
        (execute_command launch capture_output).success = false ∧
        (execute_command launch capture_output).returncode ≠ 0) := by
  intro launch cap
  refine ⟨?_, ?_, ?_⟩
  · cases launch with
    | error e => simp [execute_command]
    | ok r => simp [execute_command]
  · intro e he
    subst he
    rfl
  · intro r hr hc
    subst hr
    simp [execute_command, hc]

/-- Witness for C4 at concrete inputs: a launch exception and a completed
process with return code 127. -/
theorem claim_C4_witness :
    execute_command (.error "No such file or directory") true =
      ⟨-1, none, some "No such file or directory", false⟩ ∧
    (execute_command (.ok ⟨127, "", "not found"⟩) true).success = false := by
  constructor
  · exact (claim_C4 (.error "No such file or directory") true).2.1 _ rfl
  · exact ((claim_C4 (.ok ⟨127, "", "not found"⟩) true).2.2 _ rfl (by decide)).1

/-- Claim C5 counterexample: the fixed catalog has 7 categories, not 8. -/
theorem claim_C5_counterexample :
    get_common_commands.length = 7 ∧ ¬ get_common_commands.length = 8 := by
  constructor
  · rfl
  · intro h
    simp [get_common_commands] at h

/-- Claim C5 (amended): `get_common_commands` always returns the same fixed
catalog of 7 categories, named exactly `file_operations, system_info,
network, git, package_management, compression, text_processing` in that
order, each mapped to a nonempty ordered list of records with `command`,
`description` and `platform` fields. -/
theorem claim_C5_amended :
    get_common_commands.map Prod.fst =
      ["file_operations", "system_info", "network", "git",
       "package_management", "compression", "text_processing"] ∧
    get_common_commands.length = 7 ∧
    get_common_commands.all (fun cat => ¬ cat.2.isEmpty) = true := by
  refine ⟨rfl, rfl, rfl⟩

/-- Claim C8 counterexample: with `confirm = true` and the interactive
response `"Y"` — which is not `"y"` — the batch is not aborted: the file
is deleted and the function returns `true`, because the response is
lowercased before the comparison. -/
theorem claim_C8_counterexample :
    delete_files ["a"] true "Y" ["a"] = (true, []) ∧ "Y" ≠ "y" := by
  constructor
  · rfl
  · decide

/-- Claim C8 (amended): with `confirm = true` the batch is aborted, with no
deletion and result `false`, exactly when the lowercased interactive
response differs from `"y"`; when the batch proceeds (lowercased response
`"y"`, or `confirm = false`) missing paths are skipped, the listed paths
that exist are removed, and the function returns `true`. -/
theorem claim_C8_amended :
    ∀ (paths : List String) (response : String) (state : List String),
      (pyLower response ≠ "y" →
        delete_files paths true response state = (false, state)) ∧
      (pyLower response = "y" →
        delete_files paths true response state =
          (true, state.filter (fun f => ¬ paths.contains f))) ∧
      delete_files paths false response state =
        (true, state.filter (fun f => ¬ paths.contains f)) := by
  intro paths response state
  refine ⟨?_, ?_, ?_⟩
  · intro h
    simp [delete_files, h]
  · intro h
    simp [delete_files, h]
  · simp [delete_files]

/-- Witness for C8 (amended) at concrete inputs: response `"n"` aborts with
nothing deleted; response `"y"` deletes the existing path and skips the
missing one. -/
theorem claim_C8_witness :
    delete_files ["a", "missing"] true "n" ["a", "b"] = (false, ["a", "b"]) ∧
    delete_files ["a", "missing"] true "y" ["a", "b"] = (true, ["b"]) := by
  constructor
  · exact ((claim_C8_amended ["a", "missing"] "n" ["a", "b"]).1 (by decide))
  · exact ((claim_C8_amended ["a", "missing"] "y" ["a", "b"]).2.1 (by decide)).trans
      (by decide)

/-- Concatenating the chunks of `iter_content` recovers the body. -/
theorem iterContentAux_flatten (n : Nat) (hn : 0 < n) :
    ∀ (fuel : Nat) (l : List Nat), l.length ≤ fuel →
      (iterContentAux n fuel l).flatten = l := by
  intro fuel
  induction fuel with
  | zero =>
    intro l hl
    have hnil : l = [] := List.eq_nil_of_length_eq_zero (by omega)
    subst hnil
    rfl
  | succ fuel ih =>
    intro l hl
    cases l with
    | nil => rfl
    | cons c rest =>
      simp only [iterContentAux, List.flatten_cons]
      rw [ih _ (by simp only [List.length_drop, List.length_cons] at *; omega)]
      exact List.take_append_drop n (c :: rest)

/-- Every chunk of `iter_content` is nonempty and holds at most `n` bytes. -/
theorem iterContentAux_chunks (n : Nat) (hn : 0 < n) :
    ∀ (fuel : Nat) (l : List Nat), ∀ ch ∈ iterContentAux n fuel l,
      ch.length ≤ n ∧ ch ≠ [] := by
  intro fuel
  induction fuel with
  | zero =>
    intro l ch hch
    simp [iterContentAux] at hch
  | succ fuel ih =>
    intro l ch hch
    cases l with
    | nil => simp [iterContentAux] at hch
    | cons c rest =>
      simp only [iterContentAux, List.mem_cons] at hch
      rcases hch with hch | hch
      · subst hch
        constructor
        · simp only [List.length_take]
          omega
        · intro hemp
          have hlen := congrArg List.length hemp
          simp only [List.length_take, List.length_cons, List.length_nil] at hlen
          omega
      · exact ih _ ch hch

/-- Claim C6 counterexample: a response with status 304 — outside the 2xx
range — is not reported as a failure: `raise_for_status` only raises for
statuses in `[400, 600)`, so `download_pdf` writes the body and returns
`true`. -/
theorem claim_C6_counterexample :
    download_pdf (.ok ⟨304, [37, 80, 68, 70]⟩) = (true, some [37, 80, 68, 70]) ∧
    ¬ (200 ≤ 304 ∧ 304 < 300) := by
  constructor
  · rfl
  · omega

/-- Claim C6 (amended): `download_pdf` reports a failure (returns `false`,
writing nothing) on a launch exception and on every response status in
`[400, 600)` — the statuses `raise_for_status` raises for — and otherwise
succeeds by writing exactly the response body, incrementally as the
nonempty chunks of `iter_content(chunk_size=8192)`, each of at most 8192
bytes. -/
theorem claim_C6_amended :
    ∀ resp : Except String HttpResponse,
      (∀ e, resp = .error e → download_pdf resp = (false, none)) ∧
      (∀ r, resp = .ok r → 400 ≤ r.status → r.status < 600 →
        download_pdf resp = (false, none)) ∧
      (∀ r, resp = .ok r → ¬ (400 ≤ r.status ∧ r.status < 600) →
        download_pdf resp = (true, some ((iterContent 8192 r.body).flatten)) ∧
        (iterContent 8192 r.body).flatten = r.body ∧
        ∀ ch ∈ iterContent 8192 r.body, ch.length ≤ 8192 ∧ ch ≠ []) := by
  intro resp
  refine ⟨?_, ?_, ?_⟩
  · intro e he
    subst he
    rfl
  · intro r hr h4 h6
    subst hr
    simp [download_pdf, h4, h6]
  · intro r hr h
    subst hr
    refine ⟨by simp [download_pdf, h], ?_, ?_⟩
    · exact iterContentAux_flatten 8192 (by omega) r.body.length r.body le_rfl
    · exact fun ch hch => iterContentAux_chunks 8192 (by omega) r.body.length r.body ch hch

/-- Witness for C6 (amended) at concrete inputs: a 200 response writes its
body, a 404 response and a connection error are failures. -/
theorem claim_C6_witness :
    download_pdf (.ok ⟨200, [1, 2, 3]⟩) = (true, some [1, 2, 3]) ∧
    download_pdf (.ok ⟨404, [1]⟩) = (false, none) ∧
    download_pdf (.error "connection refused") = (false, none) := by
  refine ⟨?_, ?_, ?_⟩
  · have h := (claim_C6_amended (.ok ⟨200, [1, 2, 3]⟩)).2.2 ⟨200, [1, 2, 3]⟩ rfl
      (by decide)
    exact h.1.trans (by rw [h.2.1])
  · exact (claim_C6_amended (.ok ⟨404, [1]⟩)).2.1 ⟨404, [1]⟩ rfl (by decide) (by decide)
  · exact (claim_C6_amended (.error "connection refused")).1 _ rfl

/-- Claim C10 counterexample: in `{"x": {"y": 1}, "x.y": {}}` the top-level
key `"x.y"` is bound to an empty nested mapping, yet the flattened result
still contains the key `"x.y"` — produced by the path `x → y` — so the key
is not omitted from the result. -/
theorem claim_C10_counterexample :
    flatten_dict
        (PyDict.cons ['x'] (.dict (.cons ['y'] (.leaf 1) .nil))
          (.cons ['x', '.', 'y'] (.dict .nil) .nil)) [] ['.'] =
      [(['x', '.', 'y'], PyVal.leaf 1)] ∧
    ((flatten_dict
        (PyDict.cons ['x'] (.dict (.cons ['y'] (.leaf 1) .nil))
          (.cons ['x', '.', 'y'] (.dict .nil) .nil)) [] ['.']).map
      Prod.fst).contains ['x', '.', 'y'] = true := by
  constructor
  · rfl
  · rfl

/-- Claim C10 (amended): an entry whose value is an empty nested mapping
contributes nothing to the flattened result — removing it leaves the result
unchanged, and its key appears only if some other path produces the same
flattened key; in particular `flatten_dict({"a": \x7b\x7d, "b": 1})` is
`{"b": 1}`, so flattening can lose keys and the result's key set need not
cover every top-level key of the source. -/
theorem claim_C10_amended :
    (∀ (k : List Char) (rest : PyDict) (parent_key sep : List Char),
      flatten_dict (PyDict.cons k (.dict .nil) rest) parent_key sep =
        flatten_dict rest parent_key sep) ∧
    flatten_dict (PyDict.cons ['a'] (.dict .nil) (.cons ['b'] (.leaf 1) .nil))
        [] ['.'] =
      [(['b'], PyVal.leaf 1)] ∧
    ¬ (['a'] ∈ (flatten_dict
        (PyDict.cons ['a'] (.dict .nil) (.cons ['b'] (.leaf 1) .nil))
          [] ['.']).map Prod.fst) := by
  refine ⟨?_, rfl, ?_⟩
  · intro k rest parent_key sep
    rfl
  · decide

/-- A hex digit produced by `hexDigit` evaluates back to its nibble. -/
theorem hexVal_hexDigit (d : Nat) (hd : d < 16) : hexVal (hexDigit d) = d := by
  unfold hexVal hexDigit
  split_ifs <;> omega

/-- `hexDigit` produces a byte `isHexByte` accepts. -/
theorem isHexByte_hexDigit (d : Nat) (hd : d < 16) : isHexByte (hexDigit d) = true := by
  unfold isHexByte hexDigit
  split_ifs <;> simp <;> omega

/-- A byte in the safe set is not the percent sign. -/
theorem safeByte_ne_percent (b : Nat) (h : safeByte b = true) : b ≠ 37 := by
  intro hb
  rw [hb] at h
  exact absurd h (by decide)

/-- Scanning past a byte that is not a percent sign decodes the rest. -/
theorem decode_url_cons_of_ne (b : Nat) (hb : b ≠ 37) (t : List Nat) :
    decode_url (b :: t) = b :: decode_url t := by
  rw [decode_url.eq_def]
  split <;> simp_all

/-- Claim C9: percent-encoding with `encode_url` followed by `decode_url`
is a round trip recovering the original string exactly (strings modelled
by their UTF-8 byte sequences, on which `quote`/`unquote` operate; every
byte is below 256). -/
theorem claim_C9 :
    ∀ bs : List Nat, (∀ b ∈ bs, b < 256) → decode_url (encode_url bs) = bs := by
  intro bs h
  induction bs with
  | nil => rfl
  | cons b rest ih =>
    have hb : b < 256 := h b (List.mem_cons_self b rest)
    have hrest : ∀ x ∈ rest, x < 256 := fun x hx => h x (List.mem_cons_of_mem b hx)
    by_cases hs : safeByte b = true
    · have hq : encode_url (b :: rest) = b :: encode_url rest := by
        simp [encode_url, quoteByte, hs]
      rw [hq, decode_url_cons_of_ne b (safeByte_ne_percent b hs), ih hrest]
    · have hq : encode_url (b :: rest) =
          37 :: hexDigit (b / 16) :: hexDigit (b % 16) :: encode_url rest := by
        simp [encode_url, quoteByte, hs]
      rw [hq]
      have e : decode_url (37 :: hexDigit (b / 16) :: hexDigit (b % 16) :: encode_url rest) =
          if isHexByte (hexDigit (b / 16)) && isHexByte (hexDigit (b % 16)) then
            (hexVal (hexDigit (b / 16)) * 16 + hexVal (hexDigit (b % 16))) ::
              decode_url (encode_url rest)
          else 37 :: decode_url (hexDigit (b / 16) :: hexDigit (b % 16) :: encode_url rest) :=
        rfl
      rw [e, if_pos (by
        rw [isHexByte_hexDigit _ (by omega), isHexByte_hexDigit _ (by omega)]
        rfl)]
      rw [hexVal_hexDigit _ (by omega), hexVal_hexDigit _ (by omega), ih hrest]
      have : b / 16 * 16 + b % 16 = b := by omega
      rw [this]

/-- Witness for C9 at the concrete bytes of `"hello world"` (the space is
percent-encoded and decoded back). -/
theorem claim_C9_witness :
    decode_url (encode_url [104, 101, 108, 108, 111, 32, 119, 111, 114, 108, 100]) =
      [104, 101, 108, 108, 111, 32, 119, 111, 114, 108, 100] :=
  claim_C9 [104, 101, 108, 108, 111, 32, 119, 111, 114, 108, 100] (by decide)

/-- Claim C7: `to_snake_case` and `to_kebab_case` strip characters that are
neither word characters nor whitespace, collapse each whitespace run to a
single `_` or `-`, and lowercase; `to_camel_case` splits on whitespace,
lowercases the first word, capitalizes each later word, concatenates with
no separator, and returns the input unchanged when it has no words; the
three map `"Hello World Example"` to `"hello_world_example"`,
`"helloWorldExample"` and `"hello-world-example"`. -/
theorem claim_C7 :
    (∀ t : List Char,
      to_snake_case t =
        (collapseRuns isPySpace '_'
          (t.filter (fun c => isPyWord c || isPySpace c))).map Char.toLower ∧
      to_kebab_case t =
        (collapseRuns isPySpace '-'
          (t.filter (fun c => isPyWord c || isPySpace c))).map Char.toLower ∧
      (pyWords t = [] → to_camel_case t = t) ∧
      (∀ w ws, pyWords t = w :: ws →
        to_camel_case t = w.map Char.toLower ++ (ws.map pyCapitalize).flatten)) ∧
    to_snake_case "Hello World Example".toList = "hello_world_example".toList ∧
    to_camel_case "Hello World Example".toList = "helloWorldExample".toList ∧
    to_kebab_case "Hello World Example".toList = "hello-world-example".toList := by
  refine ⟨?_, by decide, by decide, by decide⟩
  intro t
  refine ⟨rfl, rfl, ?_, ?_⟩
  · intro h
    simp [to_camel_case, h]
  · intro w ws h
    simp [to_camel_case, h]

/-- Witness for C7 at concrete inputs: a whitespace-only input has no words
and is returned unchanged, and a two-word input follows the
lowercase-then-capitalize shape. -/
theorem claim_C7_witness :
    to_camel_case "  ".toList = "  ".toList ∧
    to_camel_case "FOO Bar".toList =
      "FOO".toList.map Char.toLower ++ (["Bar".toList].map pyCapitalize).flatten := by
  constructor
  · exact (claim_C7.1 "  ".toList).2.2.1 (by decide)
  · exact (claim_C7.1 "FOO Bar".toList).2.2.2 "FOO".toList ["Bar".toList] (by decide)

/-- `dictInsert` with a fresh key appends. -/
theorem dictInsert_of_not_mem (d : List (List Char × PyVal)) (k : List Char)
    (v : PyVal) (h : ¬ (d.map Prod.fst).contains k = true) :
    dictInsert d k v = d ++ [(k, v)] := by
  unfold dictInsert
  rw [if_neg h]

/-- Every element of `dictInsert d k v` is an element of `d` or the new
pair. -/
theorem mem_dictInsert (d : List (List Char × PyVal)) (k : List Char)
    (v : PyVal) (kv : List Char × PyVal) (h : kv ∈ dictInsert d k v) :
    kv ∈ d ∨ kv = (k, v) := by
  unfold dictInsert at h
  split at h
  · rw [List.mem_map] at h
    obtain ⟨p, hp, hpe⟩ := h
    by_cases hk : p.1 = k
    · rw [if_pos hk] at hpe
      exact Or.inr hpe.symm
    · rw [if_neg hk] at hpe
      exact Or.inl (hpe ▸ hp)
  · rw [List.mem_append] at h
    rcases h with h | h
    · exact Or.inl h
    · simp at h
      exact Or.inr h

/-- Every element of `dict(items)` is an element of `items`. -/
theorem mem_listToDict (items : List (List Char × PyVal))
    (kv : List Char × PyVal) (h : kv ∈ listToDict items) : kv ∈ items := by
  unfold listToDict at h
  suffices haux : ∀ (its : List (List Char × PyVal)) acc,
      kv ∈ its.foldl (fun a p => dictInsert a p.1 p.2) acc → kv ∈ acc ∨ kv ∈ its by
    rcases haux items [] h with hc | hc
    · simp at hc
    · exact hc
  intro its
  induction its with
  | nil =>
    intro acc hacc
    exact Or.inl hacc
  | cons hd tl ih =>
    intro acc hacc
    rcases ih (dictInsert acc hd.1 hd.2) hacc with hc | hc
    · rcases mem_dictInsert acc hd.1 hd.2 kv hc with hc2 | hc2
      · exact Or.inl hc2
      · exact Or.inr (by simp [hc2])
    · exact Or.inr (List.mem_cons_of_mem hd hc)

/-- `dict(items)` is `items` itself when the keys are pairwise distinct. -/
theorem listToDict_of_nodup (items : List (List Char × PyVal))
    (h : (items.map Prod.fst).Nodup) : listToDict items = items := by
  unfold listToDict
  suffices haux : ∀ (its : List (List Char × PyVal)) acc,
      ((acc ++ its).map Prod.fst).Nodup →
      its.foldl (fun a p => dictInsert a p.1 p.2) acc = acc ++ its by
    have := haux items [] (by simpa using h)
    simpa using this
  intro its
  induction its with
  | nil =>
    intro acc _
    simp
  | cons hd tl ih =>
    intro acc hacc
    have hfresh : ¬ (acc.map Prod.fst).contains hd.1 = true := by
      rw [List.map_append] at hacc
      rw [List.nodup_append] at hacc
      intro hcont
      have hmem : hd.1 ∈ acc.map Prod.fst := by
        simpa using hcont
      exact hacc.2.2 hmem (by simp)
    simp only [List.foldl_cons, dictInsert_of_not_mem acc hd.1 hd.2 hfresh]
    have := ih (acc ++ [(hd.1, hd.2)]) (by simpa using hacc)
    rw [this]
    simp

/-- `takeWhile (· ≠ c)` keeps a separator-free list whole. -/
theorem takeWhile_of_no_sep (c : Char) :
    ∀ (k : List Char), (∀ x ∈ k, x ≠ c) →
      k.takeWhile (fun x => decide (x ≠ c)) = k := by
  intro k
  induction k with
  | nil => intro _; rfl
  | cons a t ih =>
    intro h
    have ha : a ≠ c := h a (by simp)
    simp only [List.takeWhile_cons, decide_eq_true_eq]
    rw [if_pos ha, ih (fun x hx => h x (by simp [hx]))]

/-- `takeWhile (· ≠ c)` stops exactly at the separator after a
separator-free prefix. -/
theorem takeWhile_append_sep (c : Char) :
    ∀ (k t : List Char), (∀ x ∈ k, x ≠ c) →
      (k ++ c :: t).takeWhile (fun x => decide (x ≠ c)) = k := by
  intro k
  induction k with
  | nil =>
    intro t _
    simp [List.takeWhile_cons]
  | cons a m ih =>
    intro t h
    have ha : a ≠ c := h a (by simp)
    simp only [List.cons_append, List.takeWhile_cons, decide_eq_true_eq]
    rw [if_pos ha, ih t (fun x hx => h x (by simp [hx]))]

/-- The first component of a good path is recovered from its encoding. -/
theorem takeWhile_encodePath (c : Char) (k : List Char) (p : List (List Char))
    (hk : ∀ x ∈ k, x ≠ c) :
    (encodePath c (k :: p)).takeWhile (fun x => decide (x ≠ c)) = k := by
  cases p with
  | nil => exact takeWhile_of_no_sep c k hk
  | cons p0 ps =>
    show ((k ++ c :: encodePath c (p0 :: ps)).takeWhile fun x => decide (x ≠ c)) = k
    exact takeWhile_append_sep c k _ hk

/-- The separator occurs in the encoding of a path of two or more
components. -/
theorem sep_mem_encodePath (c : Char) (k p0 : List Char) (ps : List (List Char)) :
    c ∈ encodePath c (k :: p0 :: ps) := by
  show c ∈ k ++ c :: encodePath c (p0 :: ps)
  simp

/-- `encodePath` is injective on good paths. -/
theorem encodePath_inj (c : Char) :
    ∀ p q, goodPath c p → goodPath c q →
      encodePath c p = encodePath c q → p = q := by
  intro p
  induction p with
  | nil =>
    intro q hp _ _
    exact absurd rfl hp.1
  | cons k p2 ih =>
    intro q hp hq heq
    cases q with
    | nil => exact absurd rfl hq.1
    | cons k2 q2 =>
      have hk : ∀ x ∈ k, x ≠ c := (hp.2 k (by simp)).2
      have hk2 : ∀ x ∈ k2, x ≠ c := (hq.2 k2 (by simp)).2
      have hheads : k = k2 := by
        have h1 := takeWhile_encodePath c k p2 hk
        have h2 := takeWhile_encodePath c k2 q2 hk2
        rw [← h1, ← h2, heq]
      subst hheads
      cases p2 with
      | nil =>
        cases q2 with
        | nil => rfl
        | cons q0 qs =>
          exfalso
          have hmem : c ∈ encodePath c (k :: q0 :: qs) := sep_mem_encodePath c k q0 qs
          rw [← heq] at hmem
          exact hk c hmem rfl
      | cons p0 ps =>
        cases q2 with
        | nil =>
          exfalso
          have hmem : c ∈ encodePath c (k :: p0 :: ps) := sep_mem_encodePath c k p0 ps
          rw [heq] at hmem
          exact hk c hmem rfl
        | cons q0 qs =>
          have heq2 : encodePath c (p0 :: ps) = encodePath c (q0 :: qs) := by
            have : k ++ c :: encodePath c (p0 :: ps) =
                k ++ c :: encodePath c (q0 :: qs) := heq
            have := List.append_cancel_left this
            exact List.tail_eq_of_cons_eq this
          have hgp : goodPath c (p0 :: ps) :=
            ⟨by simp, fun comp hcomp => hp.2 comp (by simp [hcomp])⟩
          have hgq : goodPath c (q0 :: qs) :=
            ⟨by simp, fun comp hcomp => hq.2 comp (by simp [hcomp])⟩
          rw [ih (q0 :: qs) hgp hgq heq2]

/-- `glue` is injective on good paths, for any fixed parent. -/
theorem glue_inj (c : Char) (parent : List Char) (p q : List (List Char))
    (hp : goodPath c p) (hq : goodPath c q) (heq : glue c parent p = glue c parent q) :
    p = q := by
  unfold glue at heq
  by_cases hpar : parent = []
  · rw [if_pos hpar, if_pos hpar] at heq
    exact encodePath_inj c p q hp hq heq
  · rw [if_neg hpar, if_neg hpar] at heq
    have := List.append_cancel_left heq
    exact encodePath_inj c p q hp hq (List.tail_eq_of_cons_eq this)

/-- Unfolding of `goodDict` on a cons cell. -/
theorem goodDict_cons (c : Char) (k : List Char) (v : PyVal) (rest : PyDict) :
    goodDict c (.cons k v rest) = true ↔
      k ≠ [] ∧ c ∉ k ∧ k ∉ topKeys rest ∧ goodVal c v = true ∧
        goodDict c rest = true := by
  simp [goodDict, Bool.and_eq_true, decide_eq_true_eq, and_assoc]

/-- Every leaf of a good dict lies on a good path whose first component is
a top-level key. -/
theorem leavesOf_good (c : Char) (d : PyDict) (hd : goodDict c d = true) :
    ∀ pv ∈ leavesOf d, goodPath c pv.1 ∧
      ∃ k0 p2, pv.1 = k0 :: p2 ∧ k0 ∈ topKeys d := by
  match d with
  | .nil =>
    intro pv hpv
    simp [leavesOf] at hpv
  | .cons k v rest =>
    obtain ⟨hk, hck, hktop, hv, hrest⟩ := (goodDict_cons c k v rest).mp hd
    intro pv hpv
    cases v with
    | leaf n =>
      have hpv2 : pv = ([k], n) ∨ pv ∈ leavesOf rest := by
        have : pv ∈ ([k], n) :: leavesOf rest := hpv
        simpa using this
      rcases hpv2 with hpv2 | hpv2
      · subst hpv2
        refine ⟨⟨by simp, ?_⟩, k, [], rfl, by simp [topKeys]⟩
        intro comp hcomp
        simp at hcomp
        subst hcomp
        exact ⟨hk, fun x hx hxc => hck (hxc ▸ hx)⟩
      · obtain ⟨hgood, k0, p2, hsh, htop⟩ := leavesOf_good c rest hrest pv hpv2
        exact ⟨hgood, k0, p2, hsh, by simp [topKeys, htop]⟩
    | dict sub =>
      have hsub : goodDict c sub = true := hv
      have hpv2 : (∃ qv ∈ leavesOf sub, pv = (k :: qv.1, qv.2)) ∨
          pv ∈ leavesOf rest := by
        have : pv ∈ (leavesOf sub).map (fun qv => (k :: qv.1, qv.2)) ++
            leavesOf rest := hpv
        simp only [List.mem_append, List.mem_map] at this
        rcases this with ⟨qv, hqv, hqe⟩ | h2
        · exact Or.inl ⟨qv, hqv, hqe.symm⟩
        · exact Or.inr h2
      rcases hpv2 with ⟨qv, hqv, hqe⟩ | hpv2
      · obtain ⟨hgood, _, _, _, _⟩ := leavesOf_good c sub hsub qv hqv
        refine ⟨⟨by simp [hqe], ?_⟩, k, qv.1, by simp [hqe], by simp [topKeys]⟩
        intro comp hcomp
        rw [hqe] at hcomp
        simp at hcomp
        rcases hcomp with hcomp | hcomp
        · subst hcomp
          exact ⟨hk, fun x hx hxc => hck (hxc ▸ hx)⟩
        · exact hgood.2 comp hcomp
      · obtain ⟨hgood, k0, p2, hsh, htop⟩ := leavesOf_good c rest hrest pv hpv2
        exact ⟨hgood, k0, p2, hsh, by simp [topKeys, htop]⟩

/-- The leaf paths of a good dict are pairwise distinct. -/
theorem leavesOf_paths_nodup (c : Char) (d : PyDict) (hd : goodDict c d = true) :
    ((leavesOf d).map Prod.fst).Nodup := by
  match d with
  | .nil => exact List.nodup_nil
  | .cons k v rest =>
    obtain ⟨hk, hck, hktop, hv, hrest⟩ := (goodDict_cons c k v rest).mp hd
    have head_rest : ∀ p ∈ (leavesOf rest).map Prod.fst,
        ∃ k0 p2, p = k0 :: p2 ∧ k0 ∈ topKeys rest := by
      intro p hp
      rw [List.mem_map] at hp
      obtain ⟨pv, hpv, hpe⟩ := hp
      obtain ⟨_, k0, p2, hsh, htop⟩ := leavesOf_good c rest hrest pv hpv
      exact ⟨k0, p2, hpe ▸ hsh, htop⟩
    cases v with
    | leaf n =>
      show (([k], n) :: leavesOf rest).map Prod.fst |>.Nodup
      rw [List.map_cons, List.nodup_cons]
      constructor
      · intro hmem
        obtain ⟨k0, p2, hsh, htop⟩ := head_rest [k] hmem
        have : k0 = k := by
          have := hsh
          injection this with h1 _
          exact h1.symm
        exact hktop (this ▸ htop)
      · exact leavesOf_paths_nodup c rest hrest
    | dict sub =>
      have hsub : goodDict c sub = true := hv
      show ((leavesOf sub).map (fun qv => (k :: qv.1, qv.2)) ++
        leavesOf rest).map Prod.fst |>.Nodup
      rw [List.map_append, List.nodup_append]
      refine ⟨?_, leavesOf_paths_nodup c rest hrest, ?_⟩
      · have : ((leavesOf sub).map (fun qv => (k :: qv.1, qv.2))).map Prod.fst =
            ((leavesOf sub).map Prod.fst).map (fun p => k :: p) := by
          simp [List.map_map]
        rw [this]
        exact List.Nodup.map (fun a b hab => List.tail_eq_of_cons_eq hab)
          (leavesOf_paths_nodup c sub hsub)
      · intro p hp1 hp2
        rw [List.mem_map] at hp1
        obtain ⟨qv2, hqv2mem, hqe⟩ := hp1
        rw [List.mem_map] at hqv2mem
        obtain ⟨qv, _, hqve⟩ := hqv2mem
        obtain ⟨k0, p2, hsh, htop⟩ := head_rest p hp2
        have hkp : p = k :: qv.1 := by
          rw [← hqe, ← hqve]
        rw [hkp] at hsh
        have : k0 = k := by
          injection hsh with h1 _
          exact h1.symm
        exact hktop (this ▸ htop)

/-- The flattened key of a length-one relative path is the `new_key` the
code computes for that key. -/
theorem glue_single (c : Char) (parent k : List Char) :
    glue c parent [k] = newKey parent [c] k := by
  unfold glue newKey encodePath
  split_ifs with h
  · rfl
  · simp

/-- Extending the parent by one key commutes with prepending the key to
the relative path, for paths of at least one further component. -/
theorem glue_newKey (c : Char) (parent k : List Char) (hk : k ≠ [])
    (p0 : List Char) (ps : List (List Char)) :
    glue c (newKey parent [c] k) (p0 :: ps) = glue c parent (k :: p0 :: ps) := by
  have henc : encodePath c (k :: p0 :: ps) = k ++ c :: encodePath c (p0 :: ps) := rfl
  unfold glue newKey
  by_cases hpar : parent = []
  · rw [if_pos hpar, if_pos hpar, if_neg hk, henc]
  · rw [if_neg hpar, if_neg hpar,
      if_neg (by simp [hpar] : ¬ parent ++ [c] ++ k = []), henc]
    simp

/-- The flattened keys a good dict produces below any parent are pairwise
distinct. -/
theorem glue_keys_nodup (c : Char) (parent : List Char) (d : PyDict)
    (hd : goodDict c d = true) :
    (((leavesOf d).map Prod.fst).map (glue c parent)).Nodup := by
  apply List.Nodup.map_on ?_ (leavesOf_paths_nodup c d hd)
  intro p hp q hq heq
  rw [List.mem_map] at hp hq
  obtain ⟨pv, hpv, hpe⟩ := hp
  obtain ⟨qv, hqv, hqe⟩ := hq
  have hgp : goodPath c p := hpe ▸ (leavesOf_good c d hd pv hpv).1
  have hgq : goodPath c q := hqe ▸ (leavesOf_good c d hd qv hqv).1
  exact glue_inj c parent p q hgp hgq heq

/-- The keys of the mapped leaf list, as a map over the path list. -/
theorem mapped_keys_eq (c : Char) (parent : List Char) (d : PyDict) :
    ((leavesOf d).map (fun pv => (glue c parent pv.1, PyVal.leaf pv.2))).map
        Prod.fst =
      ((leavesOf d).map Prod.fst).map (glue c parent) := by
  simp [List.map_map]

/-- The item list `flatten_dict` accumulates for a good dict below any
parent: one pair per leaf, keyed by the glued encoded path, in leaf
order. -/
theorem flattenItems_spec (c : Char) (d : PyDict) (parent : List Char)
    (hd : goodDict c d = true) :
    flattenItems d parent [c] =
      (leavesOf d).map (fun pv => (glue c parent pv.1, PyVal.leaf pv.2)) := by
  match d with
  | .nil => rfl
  | .cons k v rest =>
    obtain ⟨hk, hck, hktop, hv, hrest⟩ := (goodDict_cons c k v rest).mp hd
    cases v with
    | leaf n =>
      show (newKey parent [c] k, PyVal.leaf n) :: flattenItems rest parent [c] =
        (([k], n) :: leavesOf rest).map
          (fun pv => (glue c parent pv.1, PyVal.leaf pv.2))
      rw [List.map_cons, flattenItems_spec c rest parent hrest]
      simp only [glue_single]
    | dict sub =>
      have hsub : goodDict c sub = true := hv
      show listToDict (flattenItems sub (newKey parent [c] k) [c]) ++
          flattenItems rest parent [c] =
        ((leavesOf sub).map (fun qv => (k :: qv.1, qv.2)) ++ leavesOf rest).map
          (fun pv => (glue c parent pv.1, PyVal.leaf pv.2))
      rw [flattenItems_spec c sub (newKey parent [c] k) hsub,
        flattenItems_spec c rest parent hrest,
        listToDict_of_nodup _ (by
          rw [mapped_keys_eq]
          exact glue_keys_nodup c (newKey parent [c] k) sub hsub),
        List.map_append, List.map_map]
      congr 1
      apply List.map_congr_left
      intro pv hpv
      obtain ⟨_, k0, p2, hsh, _⟩ := leavesOf_good c sub hsub pv hpv
      simp only [Function.comp]
      rw [hsh, glue_newKey c parent k hk k0 p2]

/-- `flatten_dict` of a good dict: one entry per leaf, keyed by the
encoded path. -/
theorem flatten_dict_spec (c : Char) (d : PyDict) (hd : goodDict c d = true) :
    flatten_dict d [] [c] =
      (leavesOf d).map (fun pv => (encodePath c pv.1, PyVal.leaf pv.2)) := by
  unfold flatten_dict
  rw [flattenItems_spec c d [] hd,
    listToDict_of_nodup _ (by
      rw [mapped_keys_eq]
      exact glue_keys_nodup c [] d hd)]
  apply List.map_congr_left
  intro pv _
  rw [glue]
  rw [if_pos rfl]

/-- Every value in the item list of `flatten_dict` is a non-dict leaf,
for any dict, parent and separator. -/
theorem flattenItems_vals (d : PyDict) (parent sep : List Char) :
    ∀ kv ∈ flattenItems d parent sep, ∃ n, kv.2 = PyVal.leaf n := by
  match d with
  | .nil =>
    intro kv hkv
    simp [flattenItems] at hkv
  | .cons k v rest =>
    intro kv hkv
    cases v with
    | leaf n =>
      have h2 : kv ∈ (newKey parent sep k, PyVal.leaf n) ::
          flattenItems rest parent sep := hkv
      rcases List.mem_cons.mp h2 with h | h
      · exact ⟨n, by rw [h]⟩
      · exact flattenItems_vals rest parent sep kv h
    | dict sub =>
      have h2 : kv ∈ listToDict (flattenItems sub (newKey parent sep k) sep) ++
          flattenItems rest parent sep := hkv
      rcases List.mem_append.mp h2 with h | h
      · exact flattenItems_vals sub (newKey parent sep k) sep kv
          (mem_listToDict _ kv h)
      · exact flattenItems_vals rest parent sep kv h

/-- Claim C3 counterexample: in `{"a": {"b": 1}, "a.b": 2}` the two
distinct leaf paths `a → b` and `a.b` produce the same flattened key
`"a.b"`, and the entry for the first is lost to the collision: the source
has two leaves but the flattened result has a single entry. -/
theorem claim_C3_counterexample :
    (leavesOf exColl).map Prod.fst = [[['a'], ['b']], [['a', '.', 'b']]] ∧
    [['a'], ['b']] ≠ [['a', '.', 'b']] ∧
    encodePath '.' [['a'], ['b']] = encodePath '.' [['a', '.', 'b']] ∧
    flatten_dict exColl [] ['.'] = [(['a', '.', 'b'], PyVal.leaf 2)] ∧
    (leavesOf exColl).length = 2 ∧ (flatten_dict exColl [] ['.']).length = 1 := by
  refine ⟨rfl, by decide, rfl, rfl, rfl, rfl⟩

/-- Claim C3 (amended): no nested-mapping value ever survives into the
flattened result — only non-mapping leaves appear as values, for every
dict, parent key and separator; and when the separator is a single
character that occurs in no key and every key is nonempty and unique at
its level, every key of `flatten_dict(d, sep)` corresponds to a unique
full path through the source — the result has exactly one entry per leaf,
its keys are pairwise distinct, and encoded paths coincide only for equal
paths — whereas without that restriction distinct paths can collide and
entries can be lost. -/
theorem claim_C3_amended :
    (∀ (d : PyDict) (parent_key sep : List Char),
      ∀ kv ∈ flatten_dict d parent_key sep, ∃ n, kv.2 = PyVal.leaf n) ∧
    (∀ (c : Char) (d : PyDict), goodDict c d = true →
      flatten_dict d [] [c] =
        (leavesOf d).map (fun pv => (encodePath c pv.1, PyVal.leaf pv.2)) ∧
      (flatten_dict d [] [c]).length = (leavesOf d).length ∧
      ((flatten_dict d [] [c]).map Prod.fst).Nodup ∧
      (∀ p ∈ (leavesOf d).map Prod.fst, ∀ q ∈ (leavesOf d).map Prod.fst,
        encodePath c p = encodePath c q → p = q)) := by
  constructor
  · intro d parent_key sep kv hkv
    exact flattenItems_vals d parent_key sep kv (mem_listToDict _ kv hkv)
  · intro c d hd
    have hspec := flatten_dict_spec c d hd
    have hgoods : ∀ p ∈ (leavesOf d).map Prod.fst, goodPath c p := by
      intro p hp
      rw [List.mem_map] at hp
      obtain ⟨pv, hpv, hpe⟩ := hp
      exact hpe ▸ (leavesOf_good c d hd pv hpv).1
    refine ⟨hspec, by rw [hspec, List.length_map], ?_, ?_⟩
    · have hkeys : (flatten_dict d [] [c]).map Prod.fst =
          ((leavesOf d).map Prod.fst).map (encodePath c) := by
        rw [hspec]
        simp [List.map_map]
      rw [hkeys]
      apply List.Nodup.map_on ?_ (leavesOf_paths_nodup c d hd)
      intro p hp q hq heq
      exact encodePath_inj c p q (hgoods p hp) (hgoods q hq) heq
    · intro p hp q hq heq
      exact encodePath_inj c p q (hgoods p hp) (hgoods q hq) heq

/-- Witness for C3 (amended) at the spec example `{"a": {"b": 1, "c": 2}}`:
the well-formedness side condition holds, and the flattened result is
`{"a.b": 1, "a.c": 2}` with distinct keys. -/
theorem claim_C3_witness :
    goodDict '.' exGood = true ∧
    flatten_dict exGood [] ['.'] =
      [(['a', '.', 'b'], PyVal.leaf 1), (['a', '.', 'c'], PyVal.leaf 2)] ∧
    ((flatten_dict exGood [] ['.']).map Prod.fst).Nodup := by
  have hg : goodDict '.' exGood = true := by decide
  have h := claim_C3_amended.2 '.' exGood hg
  exact ⟨hg, h.1.trans (by decide), h.2.2.1⟩

end Functions
